import Mathlib

/-!
Verification of the Bloom-filter core (`src/util/bloom.rs`) and the filter
wire-message records (`src/network/message_filter.rs`) of this repository.

Conventions of the embedding:
* machine integers are `ℕ` with explicit reduction `% 2^32` where the Rust
  code uses wrapping `u32` arithmetic;
* byte sequences are `List ℕ` (well-formedness `b < 256` is tracked by
  explicit predicates where a claim needs it);
* the `f32` floating-point sizing arithmetic of `BloomFilter::new` is
  abstracted to exact real arithmetic over `ℝ` (truncating casts
  `as usize` / `as u32` become `Int.floor` followed by `Int.toNat`, which
  also models the saturation of negative values to `0`);
* `rand::random()` used for `n_tweak` is exposed as an explicit argument of
  the constructor, so a "any `n_tweak` value" claim quantifies over it.
-/

namespace RustBitcoin

/-- Value 2^32, the modulus of `u32` arithmetic. -/
def MASK32 : ℕ := 4294967296

/-- Rotate left by `r` on 32 bits (for `x < 2^32` and `0 < r < 32`). -/
def rotl32 (x r : ℕ) : ℕ := ((x <<< r) % MASK32) ||| (x >>> (32 - r))

/-- One 4-byte-block mixing step of MurmurHash3 x86_32 (the block is read
little-endian into `k0`). -/
def mm3Block (h k0 : ℕ) : ℕ :=
  let k := (k0 * 0xcc9e2d51) % MASK32
  let k := rotl32 k 15
  let k := (k * 0x1b873593) % MASK32
  let h := h ^^^ k
  let h := rotl32 h 13
  (h * 5 + 0xe6546b64) % MASK32

/-- Body loop of MurmurHash3 x86_32: consume full 4-byte blocks, return the
running hash and the remaining tail of fewer than 4 bytes. -/
def mm3Loop : List ℕ → ℕ → ℕ × List ℕ
  | b0 :: b1 :: b2 :: b3 :: rest, h =>
      mm3Loop rest (mm3Block h (b0 ||| (b1 <<< 8) ||| (b2 <<< 16) ||| (b3 <<< 24)))
  | tail, h => (h, tail)

/-- Mixing of the partial last block of MurmurHash3 x86_32. -/
def mm3TailMix (h k1 : ℕ) : ℕ :=
  let k := (k1 * 0xcc9e2d51) % MASK32
  let k := rotl32 k 15
  let k := (k * 0x1b873593) % MASK32
  h ^^^ k

/-- Tail step of MurmurHash3 x86_32 on the remaining 0–3 bytes. -/
def mm3Tail (h : ℕ) : List ℕ → ℕ
  | [] => h
  | [b0] => mm3TailMix h b0
  | [b0, b1] => mm3TailMix h (b0 ||| (b1 <<< 8))
  | [b0, b1, b2] => mm3TailMix h (b0 ||| (b1 <<< 8) ||| (b2 <<< 16))
  | _ => h

/-- Finalization (avalanche) step of MurmurHash3 x86_32; `len` is the byte
length of the input. -/
def mm3Final (h len : ℕ) : ℕ :=
  let h := h ^^^ (len % MASK32)
  let h := h ^^^ (h >>> 16)
  let h := (h * 0x85ebca6b) % MASK32
  let h := h ^^^ (h >>> 13)
  let h := (h * 0xc2b2ae35) % MASK32
  h ^^^ (h >>> 16)

/-- Modelled from the spec: the `murmur3` crate's `seeded` function — the
seeded 32-bit MurmurHash3 (x86 variant) of a byte sequence.  The crate is an
external dependency whose code is not in this repository; the spec fixes the
hash family ("MurmurHash3 32-bit (x86 variant), seeded per round"), and this
definition is the standard published algorithm of that family. -/
def seeded (data : List ℕ) (seed : ℕ) : ℕ :=
  let p := mm3Loop data (seed % MASK32)
  mm3Final (mm3Tail p.1 p.2) data.length

/-- Constant `MAX_BLOOM_FILTER_SIZE` of `bloom.rs` (bytes). -/
def MAX_BLOOM_FILTER_SIZE : ℕ := 520

/-- Constant `MAX_HASH_FUNCS` of `bloom.rs`. -/
def MAX_HASH_FUNCS : ℕ := 50

/-- Constant `SEED_COEF` of `bloom.rs`. -/
def SEED_COEF : ℕ := 0xfba4c795

/-- Constant `BIT_MASK` of `bloom.rs`. -/
def BIT_MASK : List ℕ := [0x01, 0x02, 0x04, 0x08, 0x10, 0x20, 0x40, 0x80]

/-- The `BloomFilter` struct of `bloom.rs`. -/
structure BloomFilter where
  data : List ℕ
  n_hash_funcs : ℕ
  n_tweak : ℕ
  n_flags : ℕ
deriving DecidableEq

/-- Function `BloomFilter::hash`, with the filter state split into the two fields it
reads (`data.len()` and `n_tweak`): the per-round seed is
`n_hash_func.wrapping_mul(SEED_COEF).wrapping_add(n_tweak)` and the seeded
murmur value is reduced modulo `data.len() as u32 * 8` (both the `usize` to
`u32` cast and the multiplication by 8 wrap). -/
def hashRaw (len n_tweak n_hash_func : ℕ) (d : List ℕ) : ℕ :=
  let seed := ((n_hash_func * SEED_COEF) % MASK32 + n_tweak) % MASK32
  seeded d seed % (len % MASK32 * 8 % MASK32)

/-- Method `BloomFilter::hash`. -/
def BloomFilter.hash (bf : BloomFilter) (n_hash_func : ℕ) (d : List ℕ) : ℕ :=
  hashRaw bf.data.length bf.n_tweak n_hash_func d

/-- One iteration of the `insert` loop body:
`self.data[offset] |= BIT_MASK[(7 & i_data) as usize]` with
`offset = i_data >> 3`.  (Rust panics on an out-of-range `offset`;
`List.set` is then a no-op — the claims below prove the offset in range for
every reachable filter, so the two semantics agree there.) -/
def setBitStep (store : List ℕ) (i_data : ℕ) : List ℕ :=
  store.set (i_data >>> 3)
    ((store.getD (i_data >>> 3) 0) ||| (BIT_MASK.getD (7 &&& i_data) 0))

/-- The `insert` loop over rounds `i, i+1, ..., i+r-1`, threading the byte
store.  `hashRaw` only reads the store's length (invariant under `set`) and
`n_tweak`, exactly as `self.hash` does in the source. -/
def insertLoop (n_tweak : ℕ) (d : List ℕ) : ℕ → ℕ → List ℕ → List ℕ
  | _, 0, store => store
  | i, r + 1, store =>
      insertLoop n_tweak d (i + 1) r (setBitStep store (hashRaw store.length n_tweak i d))

/-- Method `BloomFilter::insert`. -/
def BloomFilter.insert (bf : BloomFilter) (d : List ℕ) : BloomFilter :=
  { bf with data := insertLoop bf.n_tweak d 0 bf.n_hash_funcs bf.data }

/-- The `contains` loop over rounds `i, ..., i+r-1`: returns `false` at the
first unset bit, `true` if every round finds its bit set. -/
def containsLoop (n_tweak : ℕ) (d : List ℕ) (store : List ℕ) : ℕ → ℕ → Bool
  | _, 0 => true
  | i, r + 1 =>
      let i_data := hashRaw store.length n_tweak i d
      if (store.getD (i_data >>> 3) 0) &&& (BIT_MASK.getD (7 &&& i_data) 0) = 0 then false
      else containsLoop n_tweak d store (i + 1) r

/-- Method `BloomFilter::contains`. -/
def BloomFilter.contains (bf : BloomFilter) (d : List ℕ) : Bool :=
  containsLoop bf.n_tweak d bf.data 0 bf.n_hash_funcs

/-- Inserting a sequence of elements in order (repeated `insert` calls). -/
def BloomFilter.insertSeq (bf : BloomFilter) (ds : List (List ℕ)) : BloomFilter :=
  ds.foldl BloomFilter.insert bf

/-- The unclamped sizing value of `BloomFilter::new`:
`(-1.0 / LN2_SQUARED * n_elements as f32 * fp_rate.ln() / 8.0) as usize`,
with the `f32` arithmetic abstracted to exact real arithmetic (the source's
`LN2_SQUARED` literal is the square of the natural log of 2) and the
truncating-saturating cast rendered as `Int.floor` then `Int.toNat`. -/
noncomputable def dataSizeUnclamped (n_elements : ℕ) (fp_rate : ℝ) : ℕ :=
  (⌊-1 / Real.log 2 ^ 2 * (n_elements : ℝ) * Real.log fp_rate / 8⌋).toNat

/-- The clamped `data_size` of `BloomFilter::new`:
`min(data_size as usize, MAX_BLOOM_FILTER_SIZE as usize)`. -/
noncomputable def dataSize (n_elements : ℕ) (fp_rate : ℝ) : ℕ :=
  min (dataSizeUnclamped n_elements fp_rate) MAX_BLOOM_FILTER_SIZE

/-- The unclamped hash-round count of `BloomFilter::new`:
`(data_size as f32 * 8.0 / n_elements as f32 * LN2) as u32`, abstracted to
exact real arithmetic (with `LN2` the natural log of 2). -/
noncomputable def nHashFuncsUnclamped (data_size n_elements : ℕ) : ℕ :=
  (⌊(data_size : ℝ) * 8 / (n_elements : ℝ) * Real.log 2⌋).toNat

/-- The clamped hash-round count of `BloomFilter::new`:
`min(n_hash_funcs as u32, MAX_HASH_FUNCS as u32)`. -/
noncomputable def nHashFuncs (data_size n_elements : ℕ) : ℕ :=
  min (nHashFuncsUnclamped data_size n_elements) MAX_HASH_FUNCS

/-- Constructor `BloomFilter::new`, with `rand::random()` for `n_tweak` supplied as an
explicit argument (the spec itself asks for the random source to be an
injectable dependency). -/
noncomputable def BloomFilter.new (n_elements : ℕ) (fp_rate : ℝ) (n_flags : ℕ)
    (n_tweak : ℕ) : BloomFilter :=
  { data := List.replicate (dataSize n_elements fp_rate) 0,
    n_hash_funcs := nHashFuncs (dataSize n_elements fp_rate) n_elements,
    n_tweak := n_tweak,
    n_flags := n_flags }

/-- Modelled from the spec: a 256-bit hash identifier (`util::hash::Sha256dHash`,
whose module is not in this repository's sources) — an opaque 32-byte value. -/
structure Sha256dHash where
  bytes : List ℕ
deriving DecidableEq

/-- The `FilterLoadMessage` struct of `message_filter.rs`. -/
structure FilterLoadMessage where
  filter : List ℕ
  n_hash_funcs : ℕ
  n_tweak : ℕ
  n_flags : ℕ
deriving DecidableEq

/-- The `FilterAddMessage` struct of `message_filter.rs`. -/
structure FilterAddMessage where
  data : List ℕ
deriving DecidableEq

/-- The `MerkleBlockMessage` struct of `message_filter.rs`. -/
structure MerkleBlockMessage where
  version : ℕ
  prev_block : Sha256dHash
  merkle_root : Sha256dHash
  timestamp : ℕ
  bits : ℕ
  nonce : ℕ
  total_transactions : ℕ
  hashes : List Sha256dHash
  flags : List ℕ
deriving DecidableEq

/-- Modelled from the spec: little-endian fixed-width encoding of a `u8` by
the external consensus codec. -/
def encodeU8 (n : ℕ) : List ℕ := [n % 256]

/-- Modelled from the spec: little-endian fixed-width encoding of a `u16`. -/
def encodeU16 (n : ℕ) : List ℕ := [n % 256, n / 256 % 256]

/-- Modelled from the spec: little-endian fixed-width encoding of a `u32`. -/
def encodeU32 (n : ℕ) : List ℕ :=
  [n % 256, n / 256 % 256, n / 65536 % 256, n / 16777216 % 256]

/-- Modelled from the spec: little-endian fixed-width encoding of a `u64`. -/
def encodeU64 (n : ℕ) : List ℕ :=
  [n % 256, n / 256 % 256, n / 65536 % 256, n / 16777216 % 256,
   n / 4294967296 % 256, n / 1099511627776 % 256,
   n / 281474976710656 % 256, n / 72057594037927936 % 256]

/-- Modelled from the spec: the codec's variable-length integer
(Bitcoin CompactSize) used as the length prefix of sequence fields. -/
def encodeVarInt (n : ℕ) : List ℕ :=
  if n < 253 then [n]
  else if n < 65536 then 253 :: encodeU16 n
  else if n < 4294967296 then 254 :: encodeU32 n
  else 255 :: encodeU64 n

/-- Modelled from the spec: a length-prefixed byte sequence (`Vec<u8>`). -/
def encodeVarBytes (b : List ℕ) : List ℕ := encodeVarInt b.length ++ b

/-- Modelled from the spec: a 256-bit hash identifier is serialized as its
raw 32 bytes. -/
def Sha256dHash.consensusEncode (h : Sha256dHash) : List ℕ := h.bytes

/-- Concatenated encodings of a list of hash identifiers (no prefix). -/
def encodeHashes : List Sha256dHash → List ℕ
  | [] => []
  | h :: hs => h.consensusEncode ++ encodeHashes hs

/-- Modelled from the spec: a length-prefixed `Vec<Sha256dHash>`. -/
def encodeHashVec (hs : List Sha256dHash) : List ℕ :=
  encodeVarInt hs.length ++ encodeHashes hs

/-- Decode one byte. -/
def decodeU8 : List ℕ → Option (ℕ × List ℕ)
  | b :: rest => some (b, rest)
  | [] => none

/-- Decode a little-endian `u16`. -/
def decodeU16 : List ℕ → Option (ℕ × List ℕ)
  | b0 :: b1 :: rest => some (b0 + 256 * b1, rest)
  | _ => none

/-- Decode a little-endian `u32`. -/
def decodeU32 : List ℕ → Option (ℕ × List ℕ)
  | b0 :: b1 :: b2 :: b3 :: rest =>
      some (b0 + 256 * b1 + 65536 * b2 + 16777216 * b3, rest)
  | _ => none

/-- Decode a little-endian `u64`. -/
def decodeU64 : List ℕ → Option (ℕ × List ℕ)
  | b0 :: b1 :: b2 :: b3 :: b4 :: b5 :: b6 :: b7 :: rest =>
      some (b0 + 256 * b1 + 65536 * b2 + 16777216 * b3 + 4294967296 * b4 +
        1099511627776 * b5 + 281474976710656 * b6 + 72057594037927936 * b7, rest)
  | _ => none

/-- Decode a variable-length integer (CompactSize), by its leading tag. -/
def decodeVarInt : List ℕ → Option (ℕ × List ℕ)
  | [] => none
  | b :: rest =>
      if b < 253 then some (b, rest)
      else if b = 253 then decodeU16 rest
      else if b = 254 then decodeU32 rest
      else decodeU64 rest

/-- Read exactly `n` bytes off the front of a stream (fail when short). -/
def readBytes : ℕ → List ℕ → Option (List ℕ × List ℕ)
  | 0, bs => some ([], bs)
  | _ + 1, [] => none
  | n + 1, b :: bs =>
      match readBytes n bs with
      | some (tk, rest) => some (b :: tk, rest)
      | none => none

/-- Decode a length-prefixed byte sequence. -/
def decodeVarBytes (bs : List ℕ) : Option (List ℕ × List ℕ) :=
  match decodeVarInt bs with
  | some (n, rest) => readBytes n rest
  | none => none

/-- Decode one 32-byte hash identifier. -/
def decodeSha256dHash (bs : List ℕ) : Option (Sha256dHash × List ℕ) :=
  match readBytes 32 bs with
  | some (tk, rest) => some (⟨tk⟩, rest)
  | none => none

/-- Decode `n` consecutive hash identifiers. -/
def decodeHashes : ℕ → List ℕ → Option (List Sha256dHash × List ℕ)
  | 0, bs => some ([], bs)
  | n + 1, bs =>
      match decodeSha256dHash bs with
      | some (h, rest) =>
          match decodeHashes n rest with
          | some (hs, rest2) => some (h :: hs, rest2)
          | none => none
      | none => none

/-- Decode a length-prefixed `Vec<Sha256dHash>`. -/
def decodeHashVec (bs : List ℕ) : Option (List Sha256dHash × List ℕ) :=
  match decodeVarInt bs with
  | some (n, rest) => decodeHashes n rest
  | none => none

/-- Modelled from the spec: `impl_consensus_encoding!(FilterLoadMessage,
filter, n_hash_funcs, n_tweak, n_flags)` — each field serialized in declared
order by the external codec's per-type rule. -/
def FilterLoadMessage.consensusEncode (m : FilterLoadMessage) : List ℕ :=
  encodeVarBytes m.filter ++ encodeU32 m.n_hash_funcs ++
    encodeU32 m.n_tweak ++ encodeU8 m.n_flags

/-- Modelled from the spec: decoding of `FilterLoadMessage`, fields in
declared order, failing on malformed or truncated input. -/
def FilterLoadMessage.consensusDecode (bs : List ℕ) :
    Option (FilterLoadMessage × List ℕ) :=
  match decodeVarBytes bs with
  | none => none
  | some (filter, r1) =>
      match decodeU32 r1 with
      | none => none
      | some (k, r2) =>
          match decodeU32 r2 with
          | none => none
          | some (t, r3) =>
              match decodeU8 r3 with
              | none => none
              | some (fl, r4) => some (⟨filter, k, t, fl⟩, r4)

/-- Modelled from the spec: `impl_consensus_encoding!(FilterAddMessage, data)`. -/
def FilterAddMessage.consensusEncode (m : FilterAddMessage) : List ℕ :=
  encodeVarBytes m.data

/-- Modelled from the spec: decoding of `FilterAddMessage`. -/
def FilterAddMessage.consensusDecode (bs : List ℕ) :
    Option (FilterAddMessage × List ℕ) :=
  match decodeVarBytes bs with
  | none => none
  | some (d, r1) => some (⟨d⟩, r1)

/-- Modelled from the spec: `impl_consensus_encoding!(MerkleBlockMessage,
version, prev_block, merkle_root, timestamp, bits, nonce,
total_transactions, hashes, flags)`. -/
def MerkleBlockMessage.consensusEncode (m : MerkleBlockMessage) : List ℕ :=
  encodeU32 m.version ++ m.prev_block.consensusEncode ++
    m.merkle_root.consensusEncode ++ encodeU32 m.timestamp ++
    encodeU32 m.bits ++ encodeU32 m.nonce ++ encodeU32 m.total_transactions ++
    encodeHashVec m.hashes ++ encodeVarBytes m.flags

/-- Modelled from the spec: decoding of `MerkleBlockMessage`, fields in
declared order. -/
def MerkleBlockMessage.consensusDecode (bs : List ℕ) :
    Option (MerkleBlockMessage × List ℕ) :=
  match decodeU32 bs with
  | none => none
  | some (v, r1) =>
      match decodeSha256dHash r1 with
      | none => none
      | some (pb, r2) =>
          match decodeSha256dHash r2 with
          | none => none
          | some (mr, r3) =>
              match decodeU32 r3 with
              | none => none
              | some (ts, r4) =>
                  match decodeU32 r4 with
                  | none => none
                  | some (bi, r5) =>
                      match decodeU32 r5 with
                      | none => none
                      | some (no, r6) =>
                          match decodeU32 r6 with
                          | none => none
                          | some (tt, r7) =>
                              match decodeHashVec r7 with
                              | none => none
                              | some (hs, r8) =>
                                  match decodeVarBytes r8 with
                                  | none => none
                                  | some (fl, r9) =>
                                      some (⟨v, pb, mr, ts, bi, no, tt, hs, fl⟩, r9)

/-- Well-formed byte sequence: every entry is a byte and the length fits the
codec's `u64` length prefix. -/
@[reducible] def wfBytes (bs : List ℕ) : Prop :=
  bs.length < 18446744073709551616 ∧ ∀ b ∈ bs, b < 256

/-- Well-formed 256-bit hash identifier: exactly 32 bytes. -/
@[reducible] def Sha256dHash.wf (h : Sha256dHash) : Prop :=
  h.bytes.length = 32 ∧ ∀ b ∈ h.bytes, b < 256

/-- Well-formed `FilterLoadMessage`: fields within their Rust types' ranges. -/
@[reducible] def FilterLoadMessage.wf (m : FilterLoadMessage) : Prop :=
  wfBytes m.filter ∧ m.n_hash_funcs < 4294967296 ∧
    m.n_tweak < 4294967296 ∧ m.n_flags < 256

/-- Well-formed `FilterAddMessage`. -/
@[reducible] def FilterAddMessage.wf (m : FilterAddMessage) : Prop :=
  wfBytes m.data

/-- Well-formed `MerkleBlockMessage`. -/
@[reducible] def MerkleBlockMessage.wf (m : MerkleBlockMessage) : Prop :=
  m.version < 4294967296 ∧ m.prev_block.wf ∧ m.merkle_root.wf ∧
    m.timestamp < 4294967296 ∧ m.bits < 4294967296 ∧ m.nonce < 4294967296 ∧
    m.total_transactions < 4294967296 ∧
    m.hashes.length < 18446744073709551616 ∧ (∀ h ∈ m.hashes, h.wf) ∧
    wfBytes m.flags

/-- Membership slot `v` of the byte store holds a 1 bit, phrased exactly as
the test of `contains`: `data[v >> 3] & BIT_MASK[7 & v] != 0`. -/
def bitSet (store : List ℕ) (v : ℕ) : Prop :=
  (store.getD (v >>> 3) 0) &&& (BIT_MASK.getD (7 &&& v) 0) ≠ 0

/-- Byte sequence of the ASCII string
`"99108ad8ed9bb6274d3980bab5a85c048f0950c8"` from the repository's tests. -/
def testStr1 : List ℕ :=
  [57, 57, 49, 48, 56, 97, 100, 56, 101, 100, 57, 98, 98, 54, 50, 55, 52, 100,
   51, 57, 56, 48, 98, 97, 98, 53, 97, 56, 53, 99, 48, 52, 56, 102, 48, 57,
   53, 48, 99, 56]

/-- Byte sequence of the ASCII string
`"b5a2c786d9ef4658287ced5914b37a1b4aa32eee"` from the repository's tests. -/
def testStr2 : List ℕ :=
  [98, 53, 97, 50, 99, 55, 56, 54, 100, 57, 101, 102, 52, 54, 53, 56, 50, 56,
   55, 99, 101, 100, 53, 57, 49, 52, 98, 51, 55, 97, 49, 98, 52, 97, 97, 51,
   50, 101, 101, 101]

/-- Byte sequence of the ASCII string
`"b9300670b4c5366e95b2699e8b18bc75e5f729c5"` from the repository's tests. -/
def testStr3 : List ℕ :=
  [98, 57, 51, 48, 48, 54, 55, 48, 98, 52, 99, 53, 51, 54, 54, 101, 57, 53,
   98, 50, 54, 57, 57, 101, 56, 98, 49, 56, 98, 99, 55, 53, 101, 53, 102, 55,
   50, 57, 99, 53]

/-- Byte sequence of the ASCII string
`"19108ad8ed9bb6274d3980bab5a85c048f0950c8"` (the never-inserted element of
the repository's tests). -/
def testStr4 : List ℕ :=
  [49, 57, 49, 48, 56, 97, 100, 56, 101, 100, 57, 98, 98, 54, 50, 55, 52, 100,
   51, 57, 56, 48, 98, 97, 98, 53, 97, 56, 53, 99, 48, 52, 56, 102, 48, 57,
   53, 48, 99, 56]

/-! ## Theorems -/

theorem and7_eq_mod (i : ℕ) : 7 &&& i = i % 8 := by
  rw [Nat.and_comm]
  have h := Nat.and_pow_two_sub_one_eq_mod i 3
  norm_num at h
  exact h

theorem BIT_MASK_getD (i : ℕ) : BIT_MASK.getD (7 &&& i) 0 = 2 ^ (i % 8) := by
  rw [and7_eq_mod]
  have h : i % 8 < 8 := Nat.mod_lt _ (by norm_num)
  set k := i % 8 with hk
  interval_cases k <;> rfl

theorem bitSet_iff (store : List ℕ) (v : ℕ) :
    bitSet store v ↔ (store.getD (v >>> 3) 0).testBit (v % 8) = true := by
  rw [bitSet, BIT_MASK_getD, Nat.and_two_pow]
  rcases h : (store.getD (v >>> 3) 0).testBit (v % 8) <;>
    simp [h, Nat.pow_eq_zero]

theorem length_setBitStep (store : List ℕ) (v : ℕ) :
    (setBitStep store v).length = store.length := by
  rw [setBitStep, List.length_set]

theorem length_insertLoop (t : ℕ) (d : List ℕ) (i r : ℕ) (store : List ℕ) :
    (insertLoop t d i r store).length = store.length := by
  induction r generalizing i store with
  | zero => rfl
  | succ r ih => rw [insertLoop, ih, length_setBitStep]

theorem insert_data_length (bf : BloomFilter) (d : List ℕ) :
    (bf.insert d).data.length = bf.data.length :=
  length_insertLoop ..

theorem getD_setBitStep_mono (store : List ℕ) (w j b : ℕ)
    (h : ((store.getD j 0)).testBit b = true) :
    (((setBitStep store w).getD j 0)).testBit b = true := by
  rw [setBitStep, List.getD_eq_getElem?_getD, List.getElem?_set]
  by_cases hij : w >>> 3 = j
  · rw [if_pos hij]
    by_cases hlt : w >>> 3 < store.length
    · rw [if_pos hlt, Option.getD_some, Nat.testBit_or, hij, h]
      rfl
    · exfalso
      have hnone : store[j]? = none := List.getElem?_eq_none (by omega)
      rw [List.getD_eq_getElem?_getD, hnone] at h
      simp at h
  · rw [if_neg hij, ← List.getD_eq_getElem?_getD]
    exact h

theorem getD_insertLoop_mono (t : ℕ) (d : List ℕ) (i r : ℕ) (store : List ℕ)
    (j b : ℕ) (h : ((store.getD j 0)).testBit b = true) :
    (((insertLoop t d i r store).getD j 0)).testBit b = true := by
  induction r generalizing i store with
  | zero => exact h
  | succ r ih => exact ih _ _ (getD_setBitStep_mono _ _ _ _ h)

theorem bitSet_insertLoop_mono (t : ℕ) (d : List ℕ) (i r : ℕ)
    (store : List ℕ) (v : ℕ) (h : bitSet store v) :
    bitSet (insertLoop t d i r store) v := by
  rw [bitSet_iff] at h ⊢
  exact getD_insertLoop_mono _ _ _ _ _ _ _ h

theorem bitSet_insert_mono (bf : BloomFilter) (d : List ℕ) (v : ℕ)
    (h : bitSet bf.data v) : bitSet (bf.insert d).data v :=
  bitSet_insertLoop_mono _ _ _ _ _ _ h

theorem bitSet_insertSeq_mono (bf : BloomFilter) (ds : List (List ℕ)) (v : ℕ)
    (h : bitSet bf.data v) : bitSet (bf.insertSeq ds).data v := by
  induction ds generalizing bf with
  | nil => exact h
  | cons e ds ih => exact ih _ (bitSet_insert_mono _ _ _ h)

theorem insert_data (bf : BloomFilter) (d : List ℕ) :
    (bf.insert d).data = insertLoop bf.n_tweak d 0 bf.n_hash_funcs bf.data := rfl

theorem insert_n_hash_funcs (bf : BloomFilter) (d : List ℕ) :
    (bf.insert d).n_hash_funcs = bf.n_hash_funcs := rfl

theorem insert_n_tweak (bf : BloomFilter) (d : List ℕ) :
    (bf.insert d).n_tweak = bf.n_tweak := rfl

theorem insert_n_flags (bf : BloomFilter) (d : List ℕ) :
    (bf.insert d).n_flags = bf.n_flags := rfl

theorem insertSeq_data_length (bf : BloomFilter) (ds : List (List ℕ)) :
    (bf.insertSeq ds).data.length = bf.data.length := by
  induction ds generalizing bf with
  | nil => rfl
  | cons e ds ih => rw [BloomFilter.insertSeq, List.foldl_cons,
      ← BloomFilter.insertSeq, ih, insert_data_length]

theorem insertSeq_n_hash_funcs (bf : BloomFilter) (ds : List (List ℕ)) :
    (bf.insertSeq ds).n_hash_funcs = bf.n_hash_funcs := by
  induction ds generalizing bf with
  | nil => rfl
  | cons e ds ih => rw [BloomFilter.insertSeq, List.foldl_cons,
      ← BloomFilter.insertSeq, ih, insert_n_hash_funcs]

theorem insertSeq_n_tweak (bf : BloomFilter) (ds : List (List ℕ)) :
    (bf.insertSeq ds).n_tweak = bf.n_tweak := by
  induction ds generalizing bf with
  | nil => rfl
  | cons e ds ih => rw [BloomFilter.insertSeq, List.foldl_cons,
      ← BloomFilter.insertSeq, ih, insert_n_tweak]

theorem hashRaw_lt (len t i : ℕ) (d : List ℕ) (hpos : 0 < len)
    (hcap : len ≤ 520) : hashRaw len t i d < 8 * len := by
  simp only [hashRaw]
  have h1 : len % MASK32 * 8 % MASK32 = 8 * len := by
    rw [MASK32]
    omega
  rw [h1]
  exact Nat.mod_lt _ (by omega)

theorem hash_offset_lt (len t i : ℕ) (d : List ℕ) (hpos : 0 < len)
    (hcap : len ≤ 520) : hashRaw len t i d >>> 3 < len := by
  have h := hashRaw_lt len t i d hpos hcap
  rw [Nat.shiftRight_eq_div_pow]
  have h8 : (2 : ℕ) ^ 3 = 8 := rfl
  rw [h8]
  exact (Nat.div_lt_iff_lt_mul (by norm_num)).2 (by omega)

theorem bitSet_setBitStep_self (store : List ℕ) (v : ℕ)
    (hlt : v >>> 3 < store.length) : bitSet (setBitStep store v) v := by
  rw [bitSet_iff, setBitStep, List.getD_eq_getElem?_getD,
    List.getElem?_set_self hlt, Option.getD_some, Nat.testBit_or,
    BIT_MASK_getD, Nat.testBit_two_pow_self, Bool.or_true]

theorem bitSet_insertLoop_sets (t : ℕ) (d : List ℕ) (r : ℕ) :
    ∀ (i j : ℕ) (store : List ℕ), j < r → 0 < store.length →
    store.length ≤ 520 →
    bitSet (insertLoop t d i r store) (hashRaw store.length t (i + j) d) := by
  induction r with
  | zero => intro i j store hj _ _; omega
  | succ r ih =>
    intro i j store hj hpos hcap
    rw [insertLoop]
    have hlen : (setBitStep store (hashRaw store.length t i d)).length =
        store.length := length_setBitStep _ _
    rcases j with _ | j
    · have hset := bitSet_setBitStep_self store (hashRaw store.length t i d)
        (hash_offset_lt _ _ _ _ hpos hcap)
      have hmono := bitSet_insertLoop_mono t d (i + 1) r _ _ hset
      simpa using hmono
    · have hstep := ih (i + 1) j (setBitStep store (hashRaw store.length t i d))
        (by omega) (by rw [hlen]; omega) (by rw [hlen]; omega)
      rw [hlen] at hstep
      have harg : i + (j + 1) = i + 1 + j := by omega
      rw [harg]
      exact hstep

theorem containsLoop_eq_true (t : ℕ) (d : List ℕ) (store : List ℕ) (r : ℕ) :
    ∀ i : ℕ, (∀ j, j < r → bitSet store (hashRaw store.length t (i + j) d)) →
    containsLoop t d store i r = true := by
  induction r with
  | zero => intro i _; rfl
  | succ r ih =>
    intro i h
    have h0 := h 0 (by omega)
    rw [bitSet] at h0
    simp only [Nat.add_zero] at h0
    rw [containsLoop]
    rw [if_neg h0]
    refine ih (i + 1) (fun j hj => ?_)
    have hnext := h (j + 1) (by omega)
    rwa [show i + 1 + j = i + (j + 1) by omega]

theorem contains_insert_insertSeq (bf : BloomFilter) (d : List ℕ)
    (post : List (List ℕ)) (hcap : bf.data.length ≤ 520)
    (hnz : bf.data.length = 0 → bf.n_hash_funcs = 0) :
    ((bf.insert d).insertSeq post).contains d = true := by
  have hlen : ((bf.insert d).insertSeq post).data.length = bf.data.length := by
    rw [insertSeq_data_length, insert_data_length]
  have ht : ((bf.insert d).insertSeq post).n_tweak = bf.n_tweak := by
    rw [insertSeq_n_tweak, insert_n_tweak]
  have hk : ((bf.insert d).insertSeq post).n_hash_funcs = bf.n_hash_funcs := by
    rw [insertSeq_n_hash_funcs, insert_n_hash_funcs]
  rcases Nat.eq_zero_or_pos bf.data.length with hz | hpos
  · rw [BloomFilter.contains, ht, hk, hnz hz]
    rfl
  · rw [BloomFilter.contains, ht, hk]
    apply containsLoop_eq_true
    intro j hj
    rw [hlen]
    have hbit : bitSet (bf.insert d).data (hashRaw bf.data.length bf.n_tweak (0 + j) d) :=
      bitSet_insertLoop_sets bf.n_tweak d bf.n_hash_funcs 0 j bf.data hj hpos hcap
    exact bitSet_insertSeq_mono _ post _ hbit

theorem new_data_length (n : ℕ) (fp : ℝ) (fl t : ℕ) :
    (BloomFilter.new n fp fl t).data.length = dataSize n fp := by
  rw [BloomFilter.new, List.length_replicate]

theorem new_n_hash_funcs (n : ℕ) (fp : ℝ) (fl t : ℕ) :
    (BloomFilter.new n fp fl t).n_hash_funcs = nHashFuncs (dataSize n fp) n := rfl

theorem new_n_tweak (n : ℕ) (fp : ℝ) (fl t : ℕ) :
    (BloomFilter.new n fp fl t).n_tweak = t := rfl

theorem dataSize_le (n : ℕ) (fp : ℝ) : dataSize n fp ≤ 520 :=
  Nat.min_le_right _ _

theorem nHashFuncs_le (ds n : ℕ) : nHashFuncs ds n ≤ 50 :=
  Nat.min_le_right _ _

theorem nHashFuncsUnclamped_zero (n : ℕ) : nHashFuncsUnclamped 0 n = 0 := by
  simp [nHashFuncsUnclamped]

theorem nHashFuncs_zero (n : ℕ) : nHashFuncs 0 n = 0 := by
  rw [nHashFuncs, nHashFuncsUnclamped_zero]
  rfl

/-- C1: for every byte sequence `d`, every filter constructed by `new` with
any parameters and any `n_tweak`, and any other inserts before and after,
after `insert(d)` the test `contains(d)` returns `true` — no false
negatives. -/
theorem no_false_negatives (n_elements : ℕ) (fp_rate : ℝ)
    (n_flags n_tweak : ℕ) (d : List ℕ) (pre post : List (List ℕ)) :
    ((((BloomFilter.new n_elements fp_rate n_flags n_tweak).insertSeq pre).insert
      d).insertSeq post).contains d = true := by
  apply contains_insert_insertSeq
  · rw [insertSeq_data_length, new_data_length]
    exact dataSize_le _ _
  · rw [insertSeq_data_length, insertSeq_n_hash_funcs, new_data_length,
      new_n_hash_funcs]
    intro hz
    rw [hz, nHashFuncs_zero]

/-- C5: `hash`/`insert` are pure: two filters agreeing on bit-array
contents, `n_hash_funcs` and `n_tweak` end with identical bit-array contents
after the same sequence of inserts (their `n_flags` and any external
randomness are irrelevant). -/
theorem insert_deterministic (bf1 bf2 : BloomFilter) (ds : List (List ℕ))
    (hdata : bf1.data = bf2.data) (hk : bf1.n_hash_funcs = bf2.n_hash_funcs)
    (ht : bf1.n_tweak = bf2.n_tweak) :
    (bf1.insertSeq ds).data = (bf2.insertSeq ds).data := by
  induction ds generalizing bf1 bf2 with
  | nil => exact hdata
  | cons e ds ih =>
    rw [BloomFilter.insertSeq, BloomFilter.insertSeq, List.foldl_cons,
      List.foldl_cons, ← BloomFilter.insertSeq, ← BloomFilter.insertSeq]
    apply ih
    · rw [insert_data, insert_data, hdata, hk, ht]
    · rw [insert_n_hash_funcs, insert_n_hash_funcs, hk]
    · rw [insert_n_tweak, insert_n_tweak, ht]

/-- Witness for C5 at concrete filters differing only in `n_flags`. -/
theorem insert_deterministic_witness :
    (⟨[0], 2, 7, 0⟩ : BloomFilter).data = (⟨[0], 2, 7, 1⟩ : BloomFilter).data ∧
    (⟨[0], 2, 7, 0⟩ : BloomFilter).n_hash_funcs =
      (⟨[0], 2, 7, 1⟩ : BloomFilter).n_hash_funcs ∧
    (⟨[0], 2, 7, 0⟩ : BloomFilter).n_tweak =
      (⟨[0], 2, 7, 1⟩ : BloomFilter).n_tweak ∧
    ((⟨[0], 2, 7, 0⟩ : BloomFilter).insertSeq [[5]]).data =
      ((⟨[0], 2, 7, 1⟩ : BloomFilter).insertSeq [[5]]).data :=
  ⟨rfl, rfl, rfl, insert_deterministic ⟨[0], 2, 7, 0⟩ ⟨[0], 2, 7, 1⟩ [[5]] rfl rfl rfl⟩

/-- C7: `insert` is monotonic on the bit array — any bit that is 1 before
`insert(d)` is still 1 after it; bits only ever transition 0 to 1. -/
theorem insert_bit_monotonic (bf : BloomFilter) (d : List ℕ) (j b : ℕ)
    (h : (bf.data.getD j 0).testBit b = true) :
    ((bf.insert d).data.getD j 0).testBit b = true :=
  getD_insertLoop_mono _ _ _ _ _ _ _ h

/-- Witness for C7 at a concrete filter with bit 0 of byte 0 set. -/
theorem insert_bit_monotonic_witness :
    ((⟨[1], 1, 0, 0⟩ : BloomFilter).data.getD 0 0).testBit 0 = true ∧
    (((⟨[1], 1, 0, 0⟩ : BloomFilter).insert []).data.getD 0 0).testBit 0 = true :=
  ⟨by decide, insert_bit_monotonic ⟨[1], 1, 0, 0⟩ [] 0 0 (by decide)⟩

/-- C8: `insert(d)` leaves `data.len()`, `n_hash_funcs`, `n_tweak` and
`n_flags` unchanged (only the byte contents of `data` may change); and
`contains` is a read-only function of the filter (in this embedding it
consumes the state by value and returns only a `Bool`). -/
theorem insert_frame (bf : BloomFilter) (d : List ℕ) :
    (bf.insert d).data.length = bf.data.length ∧
    (bf.insert d).n_hash_funcs = bf.n_hash_funcs ∧
    (bf.insert d).n_tweak = bf.n_tweak ∧
    (bf.insert d).n_flags = bf.n_flags :=
  ⟨insert_data_length bf d, rfl, rfl, rfl⟩

/-- C4: for every filter within the construction invariant
(`0 < data.len() ≤ 520`), `hash(i, d)` is the seeded murmur of `d` with seed
`i * 0xfba4c795 + n_tweak` wrapping modulo 2^32, reduced modulo
`data.len() * 8`, and is therefore strictly below `data.len() * 8`. -/
theorem hash_spec (bf : BloomFilter) (i : ℕ) (d : List ℕ)
    (hpos : 0 < bf.data.length) (hcap : bf.data.length ≤ 520) :
    bf.hash i d =
      seeded d ((i * SEED_COEF + bf.n_tweak) % MASK32) % (bf.data.length * 8) ∧
    bf.hash i d < bf.data.length * 8 := by
  have hseed : ((i * SEED_COEF) % MASK32 + bf.n_tweak) % MASK32 =
      (i * SEED_COEF + bf.n_tweak) % MASK32 := by
    generalize i * SEED_COEF = a
    rw [MASK32]
    omega
  have hmod : bf.data.length % MASK32 * 8 % MASK32 = bf.data.length * 8 := by
    rw [MASK32]
    omega
  refine ⟨?_, ?_⟩
  · simp only [BloomFilter.hash, hashRaw]
    rw [hseed, hmod]
  · have h := hashRaw_lt bf.data.length bf.n_tweak i d hpos hcap
    rw [BloomFilter.hash]
    omega

/-- Witness for C4 at a concrete one-byte filter. -/
theorem hash_spec_witness :
    0 < (⟨[0], 1, 0, 0⟩ : BloomFilter).data.length ∧
    (⟨[0], 1, 0, 0⟩ : BloomFilter).data.length ≤ 520 ∧
    ((⟨[0], 1, 0, 0⟩ : BloomFilter).hash 0 [] =
      seeded [] ((0 * SEED_COEF + (⟨[0], 1, 0, 0⟩ : BloomFilter).n_tweak) % MASK32) %
        ((⟨[0], 1, 0, 0⟩ : BloomFilter).data.length * 8) ∧
     (⟨[0], 1, 0, 0⟩ : BloomFilter).hash 0 [] <
       (⟨[0], 1, 0, 0⟩ : BloomFilter).data.length * 8) :=
  ⟨by decide, by decide, hash_spec ⟨[0], 1, 0, 0⟩ 0 [] (by decide) (by decide)⟩

theorem dataSizeUnclamped_zero_left (fp : ℝ) : dataSizeUnclamped 0 fp = 0 := by
  simp [dataSizeUnclamped]

theorem new_zero_elements_length (fp : ℝ) (fl t : ℕ) :
    (BloomFilter.new 0 fp fl t).data.length = 0 := by
  rw [new_data_length, dataSize, dataSizeUnclamped_zero_left]
  rfl

/-- C9: totality of the core — the constructor's output always satisfies the
invariant (`data.len() = 0` forces `n_hash_funcs = 0`, so the hash loop
never runs on an empty bit array; `data.len() ≤ 520`; `n_hash_funcs ≤ 50`),
and on any filter within the invariant every byte offset computed from a
hash result is strictly below `data.len()` and the hash's modulus is
nonzero. -/
theorem operations_total (n : ℕ) (fp : ℝ) (fl t : ℕ) (bf : BloomFilter)
    (i : ℕ) (d : List ℕ) :
    ((BloomFilter.new n fp fl t).data.length = 0 →
      (BloomFilter.new n fp fl t).n_hash_funcs = 0) ∧
    (BloomFilter.new n fp fl t).data.length ≤ 520 ∧
    (BloomFilter.new n fp fl t).n_hash_funcs ≤ 50 ∧
    (0 < bf.data.length → bf.data.length ≤ 520 →
      bf.hash i d >>> 3 < bf.data.length ∧
      0 < bf.data.length % MASK32 * 8 % MASK32) := by
  refine ⟨?_, ?_, ?_, ?_⟩
  · rw [new_data_length, new_n_hash_funcs]
    intro hz
    rw [hz, nHashFuncs_zero]
  · rw [new_data_length]
    exact dataSize_le _ _
  · rw [new_n_hash_funcs]
    exact nHashFuncs_le _ _
  · intro hpos hcap
    refine ⟨hash_offset_lt _ _ _ _ hpos hcap, ?_⟩
    rw [MASK32]
    omega

/-- Witness for C9: a zero-element construction (degenerate case) and a
concrete in-invariant filter. -/
theorem operations_total_witness :
    (BloomFilter.new 0 (1/2) 0 0).n_hash_funcs = 0 ∧
    (BloomFilter.new 0 (1/2) 0 0).data.length ≤ 520 ∧
    ((⟨[0], 1, 0, 0⟩ : BloomFilter).hash 0 [] >>> 3 <
      (⟨[0], 1, 0, 0⟩ : BloomFilter).data.length ∧
     0 < (⟨[0], 1, 0, 0⟩ : BloomFilter).data.length % MASK32 * 8 % MASK32) := by
  have h1 := operations_total 0 (1/2) 0 0 (⟨[0], 1, 0, 0⟩ : BloomFilter) 0 []
  exact ⟨h1.1 (new_zero_elements_length (1/2) 0 0),
    h1.2.1, h1.2.2.2 (by decide) (by decide)⟩

/-- C10: when the sizing formula truncates to 0 bytes, the constructed
filter has an empty bit array and zero hash rounds, and `contains` is
vacuously `true` for every byte sequence even though nothing was inserted. -/
theorem degenerate_filter_contains (n : ℕ) (fp : ℝ) (fl t : ℕ)
    (h : dataSizeUnclamped n fp = 0) :
    (BloomFilter.new n fp fl t).data.length = 0 ∧
    (BloomFilter.new n fp fl t).n_hash_funcs = 0 ∧
    ∀ d : List ℕ, (BloomFilter.new n fp fl t).contains d = true := by
  have hds : dataSize n fp = 0 := by
    rw [dataSize, h]
    rfl
  refine ⟨?_, ?_, ?_⟩
  · rw [new_data_length, hds]
  · rw [new_n_hash_funcs, hds, nHashFuncs_zero]
  · intro d
    rw [BloomFilter.contains, new_n_hash_funcs, hds, nHashFuncs_zero]
    rfl

/-- Witness for C10 at `n_elements = 0`. -/
theorem degenerate_filter_contains_witness :
    dataSizeUnclamped 0 (1/2) = 0 ∧
    (BloomFilter.new 0 (1/2) 0 0).data.length = 0 ∧
    (BloomFilter.new 0 (1/2) 0 0).n_hash_funcs = 0 ∧
    (BloomFilter.new 0 (1/2) 0 0).contains [1, 2, 3] = true := by
  have h := dataSizeUnclamped_zero_left (1/2 : ℝ)
  have hc := degenerate_filter_contains 0 (1/2) 0 0 h
  exact ⟨h, hc.1, hc.2.1, hc.2.2 [1, 2, 3]⟩

theorem log_two_pos : (0 : ℝ) < Real.log 2 :=
  Real.log_pos (by norm_num)

theorem log_two_ne_zero : Real.log 2 ≠ 0 :=
  ne_of_gt log_two_pos

theorem log_five_lb : 16 / 7 * Real.log 2 < Real.log 5 := by
  have h : Real.log ((2 : ℝ) ^ 16) < Real.log ((5 : ℝ) ^ 7) := by
    apply Real.log_lt_log (by norm_num)
    norm_num
  rw [Real.log_pow, Real.log_pow] at h
  push_cast at h
  linarith

theorem log_five_ub : Real.log 5 < 7 / 3 * Real.log 2 := by
  have h : Real.log ((5 : ℝ) ^ 3) < Real.log ((2 : ℝ) ^ 7) := by
    apply Real.log_lt_log (by norm_num)
    norm_num
  rw [Real.log_pow, Real.log_pow] at h
  push_cast at h
  linarith

theorem log_ten_eq : Real.log 10 = Real.log 2 + Real.log 5 := by
  rw [show (10 : ℝ) = 2 * 5 by norm_num,
    Real.log_mul (by norm_num) (by norm_num)]

theorem log_00001 :
    Real.log (0.0001 : ℝ) = -(4 * (Real.log 2 + Real.log 5)) := by
  rw [show (0.0001 : ℝ) = ((10 : ℝ) ^ 4)⁻¹ by norm_num, Real.log_inv,
    Real.log_pow, log_ten_eq]
  push_cast
  ring

theorem log_001 :
    Real.log (0.01 : ℝ) = -(2 * (Real.log 2 + Real.log 5)) := by
  rw [show (0.01 : ℝ) = ((10 : ℝ) ^ 2)⁻¹ by norm_num, Real.log_inv,
    Real.log_pow, log_ten_eq]
  push_cast
  ring

theorem dataSizeUnclamped_one_00001 : dataSizeUnclamped 1 (0.0001 : ℝ) = 2 := by
  rw [dataSizeUnclamped]
  have hexpr : -1 / Real.log 2 ^ 2 * ((1 : ℕ) : ℝ) * Real.log (0.0001 : ℝ) / 8 =
      (Real.log 2 + Real.log 5) / (2 * Real.log 2 ^ 2) := by
    rw [log_00001]
    push_cast
    field_simp
    ring
  rw [hexpr]
  have hl2 := Real.log_two_gt_d9
  have hl2' := Real.log_two_lt_d9
  have hl5 := log_five_lb
  have hl5' := log_five_ub
  have hpos : (0 : ℝ) < 2 * Real.log 2 ^ 2 := by nlinarith
  have hfloor : ⌊(Real.log 2 + Real.log 5) / (2 * Real.log 2 ^ 2)⌋ = (2 : ℤ) := by
    rw [Int.floor_eq_iff]
    constructor
    · push_cast
      rw [le_div_iff hpos]
      nlinarith
    · push_cast
      rw [div_lt_iff hpos]
      nlinarith
  rw [hfloor]
  rfl

theorem dataSizeUnclamped_three_001 : dataSizeUnclamped 3 (0.01 : ℝ) = 3 := by
  rw [dataSizeUnclamped]
  have hexpr : -1 / Real.log 2 ^ 2 * ((3 : ℕ) : ℝ) * Real.log (0.01 : ℝ) / 8 =
      3 * (Real.log 2 + Real.log 5) / (4 * Real.log 2 ^ 2) := by
    rw [log_001]
    push_cast
    field_simp
    ring
  rw [hexpr]
  have hl2 := Real.log_two_gt_d9
  have hl2' := Real.log_two_lt_d9
  have hl5 := log_five_lb
  have hl5' := log_five_ub
  have hpos : (0 : ℝ) < 4 * Real.log 2 ^ 2 := by nlinarith
  have hfloor : ⌊3 * (Real.log 2 + Real.log 5) / (4 * Real.log 2 ^ 2)⌋ = (3 : ℤ) := by
    rw [Int.floor_eq_iff]
    constructor
    · push_cast
      rw [le_div_iff hpos]
      nlinarith
    · push_cast
      rw [div_lt_iff hpos]
      nlinarith
  rw [hfloor]
  rfl

theorem nHashFuncsUnclamped_two_one : nHashFuncsUnclamped 2 1 = 11 := by
  rw [nHashFuncsUnclamped]
  have hexpr : ((2 : ℕ) : ℝ) * 8 / ((1 : ℕ) : ℝ) * Real.log 2 =
      16 * Real.log 2 := by
    push_cast
    ring
  rw [hexpr]
  have hl2 := Real.log_two_gt_d9
  have hl2' := Real.log_two_lt_d9
  have hfloor : ⌊(16 : ℝ) * Real.log 2⌋ = (11 : ℤ) := by
    rw [Int.floor_eq_iff]
    constructor
    · push_cast
      nlinarith
    · push_cast
      nlinarith
  rw [hfloor]
  rfl

theorem nHashFuncsUnclamped_three_three : nHashFuncsUnclamped 3 3 = 5 := by
  rw [nHashFuncsUnclamped]
  have hexpr : ((3 : ℕ) : ℝ) * 8 / ((3 : ℕ) : ℝ) * Real.log 2 =
      8 * Real.log 2 := by
    norm_num
  rw [hexpr]
  have hl2 := Real.log_two_gt_d9
  have hl2' := Real.log_two_lt_d9
  have hfloor : ⌊(8 : ℝ) * Real.log 2⌋ = (5 : ℤ) := by
    rw [Int.floor_eq_iff]
    constructor
    · push_cast
      nlinarith
    · push_cast
      nlinarith
  rw [hfloor]
  rfl

theorem dataSize_one_00001 : dataSize 1 (0.0001 : ℝ) = 2 := by
  rw [dataSize, dataSizeUnclamped_one_00001]
  rfl

theorem dataSize_three_001 : dataSize 3 (0.01 : ℝ) = 3 := by
  rw [dataSize, dataSizeUnclamped_three_001]
  rfl

theorem new_three_001 : BloomFilter.new 3 (0.01 : ℝ) 0 0 = ⟨[0, 0, 0], 5, 0, 0⟩ := by
  rw [BloomFilter.new, dataSize_three_001, nHashFuncs,
    nHashFuncsUnclamped_three_three]
  rfl

theorem new_one_00001 (t : ℕ) :
    (BloomFilter.new 1 (0.0001 : ℝ) 0 t).data.length = 2 ∧
    (BloomFilter.new 1 (0.0001 : ℝ) 0 t).n_hash_funcs = 11 := by
  constructor
  · rw [new_data_length, dataSize_one_00001]
  · rw [new_n_hash_funcs, dataSize_one_00001, nHashFuncs,
      nHashFuncsUnclamped_two_one]
    rfl

/-- C2: the repository's concrete scenarios — the filter from
`new(3, 0.01, 0)` with `n_tweak = 0`, after inserting the three ASCII test
strings, contains all three and rejects the fourth; and `new(1, 0.0001, 0)`
has a 2-byte bit array and 11 hash rounds (for any tweak). -/
theorem concrete_scenario (t : ℕ) :
    ((((BloomFilter.new 3 (0.01 : ℝ) 0 0).insert testStr1).insert
        testStr2).insert testStr3).contains testStr1 = true ∧
    ((((BloomFilter.new 3 (0.01 : ℝ) 0 0).insert testStr1).insert
        testStr2).insert testStr3).contains testStr2 = true ∧
    ((((BloomFilter.new 3 (0.01 : ℝ) 0 0).insert testStr1).insert
        testStr2).insert testStr3).contains testStr3 = true ∧
    ((((BloomFilter.new 3 (0.01 : ℝ) 0 0).insert testStr1).insert
        testStr2).insert testStr3).contains testStr4 = false ∧
    (BloomFilter.new 1 (0.0001 : ℝ) 0 t).data.length = 2 ∧
    (BloomFilter.new 1 (0.0001 : ℝ) 0 t).n_hash_funcs = 11 := by
  rw [new_three_001]
  exact ⟨by decide, by decide, by decide, by decide, (new_one_00001 t).1,
    (new_one_00001 t).2⟩

/-- C3: the sizing caps — when the unclamped byte-size formula exceeds 520
the filter gets exactly 520 bytes; when the unclamped round formula exceeds
50 the filter gets exactly 50 rounds; and the caps always hold. -/
theorem sizing_clamped (n : ℕ) (fp : ℝ) (fl t : ℕ) :
    (520 < dataSizeUnclamped n fp →
      (BloomFilter.new n fp fl t).data.length = 520) ∧
    (50 < nHashFuncsUnclamped (dataSize n fp) n →
      (BloomFilter.new n fp fl t).n_hash_funcs = 50) ∧
    (BloomFilter.new n fp fl t).data.length ≤ 520 ∧
    (BloomFilter.new n fp fl t).n_hash_funcs ≤ 50 := by
  refine ⟨?_, ?_, ?_, ?_⟩
  · intro h
    rw [new_data_length, dataSize, MAX_BLOOM_FILTER_SIZE]
    omega
  · intro h
    rw [new_n_hash_funcs, nHashFuncs, MAX_HASH_FUNCS]
    omega
  · rw [new_data_length]
    exact dataSize_le _ _
  · rw [new_n_hash_funcs]
    exact nHashFuncs_le _ _

theorem log_half : Real.log (1 / 2 : ℝ) = -Real.log 2 := by
  rw [show (1 / 2 : ℝ) = (2 : ℝ)⁻¹ by norm_num, Real.log_inv]

theorem dataSizeUnclamped_big : 520 < dataSizeUnclamped 10000 (1 / 2 : ℝ) := by
  rw [dataSizeUnclamped]
  have hexpr : -1 / Real.log 2 ^ 2 * ((10000 : ℕ) : ℝ) * Real.log (1 / 2 : ℝ) / 8 =
      1250 / Real.log 2 := by
    rw [log_half]
    push_cast
    field_simp
    ring
  rw [hexpr]
  have hl2' := Real.log_two_lt_d9
  have hge : (521 : ℝ) ≤ 1250 / Real.log 2 := by
    rw [le_div_iff log_two_pos]
    nlinarith
  have hfl : (521 : ℤ) ≤ ⌊(1250 : ℝ) / Real.log 2⌋ := by
    rw [Int.le_floor]
    push_cast
    exact hge
  omega

theorem log_inv_pow_two_sixty :
    Real.log (1 / 2 ^ 60 : ℝ) = -(60 * Real.log 2) := by
  rw [show (1 / 2 ^ 60 : ℝ) = ((2 : ℝ) ^ 60)⁻¹ by norm_num, Real.log_inv,
    Real.log_pow]
  push_cast
  ring

theorem dataSize_one_smallfp : dataSize 1 (1 / 2 ^ 60 : ℝ) = 10 := by
  rw [dataSize, dataSizeUnclamped]
  have hexpr : -1 / Real.log 2 ^ 2 * ((1 : ℕ) : ℝ) *
      Real.log (1 / 2 ^ 60 : ℝ) / 8 = (15 / 2) / Real.log 2 := by
    rw [log_inv_pow_two_sixty]
    push_cast
    field_simp
    ring
  rw [hexpr]
  have hl2 := Real.log_two_gt_d9
  have hl2' := Real.log_two_lt_d9
  have hfloor : ⌊((15 : ℝ) / 2) / Real.log 2⌋ = (10 : ℤ) := by
    rw [Int.floor_eq_iff]
    constructor
    · push_cast
      rw [le_div_iff log_two_pos]
      nlinarith
    · push_cast
      rw [div_lt_iff log_two_pos]
      nlinarith
  rw [hfloor]
  rfl

theorem nHashFuncsUnclamped_big : 50 < nHashFuncsUnclamped 10 1 := by
  rw [nHashFuncsUnclamped]
  have hexpr : ((10 : ℕ) : ℝ) * 8 / ((1 : ℕ) : ℝ) * Real.log 2 =
      80 * Real.log 2 := by
    push_cast
    ring
  rw [hexpr]
  have hl2 := Real.log_two_gt_d9
  have hfl : (51 : ℤ) ≤ ⌊(80 : ℝ) * Real.log 2⌋ := by
    rw [Int.le_floor]
    push_cast
    nlinarith
  omega

/-- Witness for C3: a parameter pair whose byte-size formula demands 1803
bytes (clamped to 520) and one whose round formula demands 55 rounds
(clamped to 50). -/
theorem sizing_clamped_witness :
    (520 < dataSizeUnclamped 10000 (1 / 2 : ℝ) ∧
     (BloomFilter.new 10000 (1 / 2 : ℝ) 0 0).data.length = 520) ∧
    (50 < nHashFuncsUnclamped (dataSize 1 (1 / 2 ^ 60 : ℝ)) 1 ∧
     (BloomFilter.new 1 (1 / 2 ^ 60 : ℝ) 0 0).n_hash_funcs = 50) := by
  have h2 : 50 < nHashFuncsUnclamped (dataSize 1 (1 / 2 ^ 60 : ℝ)) 1 := by
    rw [dataSize_one_smallfp]
    exact nHashFuncsUnclamped_big
  exact ⟨⟨dataSizeUnclamped_big,
      (sizing_clamped 10000 (1 / 2 : ℝ) 0 0).1 dataSizeUnclamped_big⟩,
    ⟨h2, (sizing_clamped 1 (1 / 2 ^ 60 : ℝ) 0 0).2.1 h2⟩⟩

theorem readBytes_append (tk rest : List ℕ) :
    readBytes tk.length (tk ++ rest) = some (tk, rest) := by
  induction tk with
  | nil => rfl
  | cons b tk ih => rw [List.length_cons, List.cons_append, readBytes, ih]

theorem decodeU8_rt (n : ℕ) (r : List ℕ) (h : n < 256) :
    decodeU8 (encodeU8 n ++ r) = some (n, r) := by
  simp [encodeU8, decodeU8, Nat.mod_eq_of_lt h]

theorem decodeU16_rt (n : ℕ) (r : List ℕ) (h : n < 65536) :
    decodeU16 (encodeU16 n ++ r) = some (n, r) := by
  have hn : n % 256 + 256 * (n / 256 % 256) = n := by omega
  simp [encodeU16, decodeU16, hn]

theorem decodeU32_rt (n : ℕ) (r : List ℕ) (h : n < 4294967296) :
    decodeU32 (encodeU32 n ++ r) = some (n, r) := by
  have hn : n % 256 + 256 * (n / 256 % 256) + 65536 * (n / 65536 % 256) +
      16777216 * (n / 16777216 % 256) = n := by omega
  simp [encodeU32, decodeU32, hn]

theorem decodeU64_rt (n : ℕ) (r : List ℕ) (h : n < 18446744073709551616) :
    decodeU64 (encodeU64 n ++ r) = some (n, r) := by
  have hn : n % 256 + 256 * (n / 256 % 256) + 65536 * (n / 65536 % 256) +
      16777216 * (n / 16777216 % 256) + 4294967296 * (n / 4294967296 % 256) +
      1099511627776 * (n / 1099511627776 % 256) +
      281474976710656 * (n / 281474976710656 % 256) +
      72057594037927936 * (n / 72057594037927936 % 256) = n := by omega
  simp [encodeU64, decodeU64, hn]

theorem decodeVarInt_rt (n : ℕ) (r : List ℕ) (h : n < 18446744073709551616) :
    decodeVarInt (encodeVarInt n ++ r) = some (n, r) := by
  rw [encodeVarInt]
  by_cases h1 : n < 253
  · rw [if_pos h1]
    simp [decodeVarInt, h1]
  · rw [if_neg h1]
    by_cases h2 : n < 65536
    · rw [if_pos h2]
      show decodeVarInt (253 :: (encodeU16 n ++ r)) = some (n, r)
      rw [decodeVarInt, if_neg (by norm_num), if_pos rfl]
      exact decodeU16_rt n r h2
    · rw [if_neg h2]
      by_cases h3 : n < 4294967296
      · rw [if_pos h3]
        show decodeVarInt (254 :: (encodeU32 n ++ r)) = some (n, r)
        rw [decodeVarInt, if_neg (by norm_num), if_neg (by norm_num),
          if_pos rfl]
        exact decodeU32_rt n r h3
      · rw [if_neg h3]
        show decodeVarInt (255 :: (encodeU64 n ++ r)) = some (n, r)
        rw [decodeVarInt, if_neg (by norm_num), if_neg (by norm_num),
          if_neg (by norm_num)]
        exact decodeU64_rt n r h

theorem decodeVarBytes_rt (bs r : List ℕ)
    (h : bs.length < 18446744073709551616) :
    decodeVarBytes (encodeVarBytes bs ++ r) = some (bs, r) := by
  rw [encodeVarBytes, List.append_assoc, decodeVarBytes,
    decodeVarInt_rt bs.length (bs ++ r) h]
  exact readBytes_append bs r

theorem decodeSha256dHash_rt (hsh : Sha256dHash) (r : List ℕ)
    (h : hsh.bytes.length = 32) :
    decodeSha256dHash (hsh.consensusEncode ++ r) = some (hsh, r) := by
  rw [Sha256dHash.consensusEncode, decodeSha256dHash, ← h, readBytes_append]

theorem decodeHashes_rt (hs : List Sha256dHash) (r : List ℕ)
    (h : ∀ x ∈ hs, x.bytes.length = 32) :
    decodeHashes hs.length (encodeHashes hs ++ r) = some (hs, r) := by
  induction hs with
  | nil => rfl
  | cons x hs ih =>
    simp only [List.length_cons, encodeHashes, List.append_assoc, decodeHashes,
      decodeSha256dHash_rt x _ (h x (by simp)),
      ih (fun y hy => h y (by simp [hy]))]

theorem decodeHashVec_rt (hs : List Sha256dHash) (r : List ℕ)
    (hlen : hs.length < 18446744073709551616)
    (h : ∀ x ∈ hs, x.bytes.length = 32) :
    decodeHashVec (encodeHashVec hs ++ r) = some (hs, r) := by
  rw [encodeHashVec, List.append_assoc, decodeHashVec,
    decodeVarInt_rt hs.length _ hlen]
  exact decodeHashes_rt hs r h

theorem filterLoad_decode_encode (m : FilterLoadMessage) (r : List ℕ)
    (h : m.wf) :
    FilterLoadMessage.consensusDecode (m.consensusEncode ++ r) = some (m, r) := by
  obtain ⟨⟨hfl, _⟩, hk, ht, hf⟩ := h
  simp only [FilterLoadMessage.consensusEncode, List.append_assoc,
    FilterLoadMessage.consensusDecode, decodeVarBytes_rt _ _ hfl,
    decodeU32_rt _ _ hk, decodeU32_rt _ _ ht, decodeU8_rt _ _ hf]

theorem filterAdd_decode_encode (m : FilterAddMessage) (r : List ℕ)
    (h : m.wf) :
    FilterAddMessage.consensusDecode (m.consensusEncode ++ r) = some (m, r) := by
  obtain ⟨hfl, _⟩ := h
  rw [FilterAddMessage.consensusEncode, FilterAddMessage.consensusDecode,
    decodeVarBytes_rt _ _ hfl]

theorem merkleBlock_decode_encode (m : MerkleBlockMessage) (r : List ℕ)
    (h : m.wf) :
    MerkleBlockMessage.consensusDecode (m.consensusEncode ++ r) = some (m, r) := by
  obtain ⟨hv, ⟨hpb, _⟩, ⟨hmr, _⟩, hts, hbi, hno, htt, hhl, hhs, hflen, _⟩ := h
  have hhs32 : ∀ x ∈ m.hashes, x.bytes.length = 32 := fun x hx => (hhs x hx).1
  simp only [MerkleBlockMessage.consensusEncode, List.append_assoc,
    MerkleBlockMessage.consensusDecode, decodeU32_rt _ _ hv,
    decodeSha256dHash_rt _ _ hpb, decodeSha256dHash_rt _ _ hmr,
    decodeU32_rt _ _ hts, decodeU32_rt _ _ hbi, decodeU32_rt _ _ hno,
    decodeU32_rt _ _ htt, decodeHashVec_rt _ _ hhl hhs32,
    decodeVarBytes_rt _ _ hflen]

/-- C6: for each of the three message shapes, decoding the encoding of any
well-formed record — fields serialized in the declared order, including
records with empty `filter`/`hashes`/`flags` — returns the original record
with no bytes left over. -/
theorem messages_roundtrip :
    (∀ m : FilterLoadMessage, m.wf →
      FilterLoadMessage.consensusDecode m.consensusEncode = some (m, [])) ∧
    (∀ m : FilterAddMessage, m.wf →
      FilterAddMessage.consensusDecode m.consensusEncode = some (m, [])) ∧
    (∀ m : MerkleBlockMessage, m.wf →
      MerkleBlockMessage.consensusDecode m.consensusEncode = some (m, [])) := by
  refine ⟨fun m h => ?_, fun m h => ?_, fun m h => ?_⟩
  · rw [← List.append_nil m.consensusEncode]
    exact filterLoad_decode_encode m [] h
  · rw [← List.append_nil m.consensusEncode]
    exact filterAdd_decode_encode m [] h
  · rw [← List.append_nil m.consensusEncode]
    exact merkleBlock_decode_encode m [] h

/-- Witness for C6: one concrete record per message shape, each with its
sequence fields empty. -/
theorem messages_roundtrip_witness :
    ((⟨[], 11, 0, 0⟩ : FilterLoadMessage).wf ∧
     FilterLoadMessage.consensusDecode
       (⟨[], 11, 0, 0⟩ : FilterLoadMessage).consensusEncode =
         some (⟨[], 11, 0, 0⟩, [])) ∧
    ((⟨[]⟩ : FilterAddMessage).wf ∧
     FilterAddMessage.consensusDecode
       (⟨[]⟩ : FilterAddMessage).consensusEncode = some (⟨[]⟩, [])) ∧
    ((⟨1, ⟨List.replicate 32 0⟩, ⟨List.replicate 32 255⟩, 2, 3, 4, 5, [], []⟩ :
        MerkleBlockMessage).wf ∧
     MerkleBlockMessage.consensusDecode
       (⟨1, ⟨List.replicate 32 0⟩, ⟨List.replicate 32 255⟩, 2, 3, 4, 5, [], []⟩ :
         MerkleBlockMessage).consensusEncode =
       some (⟨1, ⟨List.replicate 32 0⟩, ⟨List.replicate 32 255⟩, 2, 3, 4, 5,
         [], []⟩, [])) := by
  have h1 : (⟨[], 11, 0, 0⟩ : FilterLoadMessage).wf := by decide
  have h2 : (⟨[]⟩ : FilterAddMessage).wf := by decide
  have h3 : (⟨1, ⟨List.replicate 32 0⟩, ⟨List.replicate 32 255⟩, 2, 3, 4, 5,
      [], []⟩ : MerkleBlockMessage).wf := by decide
  exact ⟨⟨h1, messages_roundtrip.1 _ h1⟩, ⟨h2, messages_roundtrip.2.1 _ h2⟩,
    ⟨h3, messages_roundtrip.2.2 _ h3⟩⟩

end RustBitcoin
